import Mathlib

/-!
Verification of the contextual memory subsystem of `src/main.py` (A SEED backend).

The embedding models the Python source directly:
* float values are modelled as rationals (every IEEE float is a rational) and
  float arithmetic as exact real arithmetic, so `math.sqrt` becomes `Real.sqrt`;
* the per-user memory file is modelled as a map from file names to the parsed
  record list; the external embedding backend's outcome is an explicit
  `Option (List ℚ)` parameter (the code calls it and treats `None`/`[]` as
  unavailable);
* Python's stable `list.sort(key=..., reverse=True)` is modelled by a stable
  descending insertion sort (`sort_desc`): it places a record being inserted
  before later records with an equal key, which is exactly the stable
  descending order CPython's sort produces.
-/

/-- A persisted memory record, mirroring the dict literal written by
`save_memory_npy`: `{"ts": ..., "role": ..., "text": ..., "vector": ...}`. -/
structure MemRecord where
  ts : ℤ
  role : String
  text : String
  vector : List ℚ
deriving DecidableEq

/-- `sum(a * b for a, b in zip(v1, v2))` from `cosine_sim`. -/
def dot_prod (v1 v2 : List ℚ) : ℚ :=
  ((v1.zip v2).map (fun p => p.1 * p.2)).sum

/-- `sum(a * a for a in v)`, the squared magnitude used inside `cosine_sim`. -/
def sum_sq (v : List ℚ) : ℚ :=
  (v.map (fun a => a * a)).sum

/-- `cosine_sim(v1, v2)` from `src/main.py` lines 112-118: returns `0.0` when a
vector is empty or the lengths differ, or when either magnitude is zero, and
otherwise `dot / (mag1 * mag2)`. -/
noncomputable def cosine_sim (v1 v2 : List ℚ) : ℝ :=
  if v1 = [] ∨ v2 = [] ∨ v1.length ≠ v2.length then 0
  else if Real.sqrt ((sum_sq v1 : ℚ) : ℝ) = 0 ∨ Real.sqrt ((sum_sq v2 : ℚ) : ℝ) = 0 then 0
  else ((dot_prod v1 v2 : ℚ) : ℝ) / (Real.sqrt ((sum_sq v1 : ℚ) : ℝ) * Real.sqrt ((sum_sq v2 : ℚ) : ℝ))

/-- One step of the stable descending insertion sort: walk past strictly
greater keys, then place `x` before every later element whose key is less
than or equal to `key x` (this preserves the original order of equal keys,
matching Python's stable `sort(..., reverse=True)`). -/
noncomputable def insert_desc {α : Type} (key : α → ℝ) (x : α) : List α → List α
  | [] => [x]
  | y :: ys => if key x < key y then y :: insert_desc key x ys else x :: y :: ys

/-- Stable descending sort by `key`, the model of
`scores.sort(key=lambda x: x[0], reverse=True)`. -/
noncomputable def sort_desc {α : Type} (key : α → ℝ) : List α → List α
  | [] => []
  | x :: xs => insert_desc key x (sort_desc key xs)

/-- The `scores` list built by `find_relevant_npy`:
`(cosine_sim(q_vec, item["vector"]), item["text"])` for each stored item. -/
noncomputable def score_pairs (q_vec : List ℚ) (data : List MemRecord) : List (ℝ × String) :=
  data.map (fun item => (cosine_sim q_vec item.vector, item.text))

/-- The `res` list of `find_relevant_npy`: texts of the `top_k` highest-scoring
records after the stable descending sort. -/
noncomputable def relevant_texts (data : List MemRecord) (q_vec : List ℚ) (top_k : ℕ) : List String :=
  ((sort_desc (fun p => p.1) (score_pairs q_vec data)).take top_k).map Prod.snd

/-- Observable state of a user's memory file as `find_relevant_npy` sees it:
absent, present but unparseable, or parsed to a record list. -/
inductive StoreState where
  | missing
  | corrupt
  | ok (data : List MemRecord)
deriving DecidableEq

/-- The inline load discipline of `src/main.py` (`try: json.load ... except:`):
a missing or corrupt store reads as the empty collection. -/
def load_memory : StoreState → List MemRecord
  | .ok data => data
  | _ => []

/-- `find_relevant_npy(user_id, query, top_k)` from lines 133-146, with the
store state and the embedding outcome for the query made explicit.  Python's
`if not q_vec` is false for both `None` and the empty list. -/
noncomputable def find_relevant_npy (st : StoreState) (q_vec : Option (List ℚ)) (top_k : ℕ) : String :=
  match st with
  | .missing => ""
  | .corrupt =>
    match q_vec with
    | none => ""
    | some _ => ""
  | .ok data =>
    match q_vec with
    | none => ""
    | some qv =>
      if qv = [] then ""
      else if data = [] then ""
      else
        let res := relevant_texts data qv top_k
        if res = [] then ""
        else "\n\n[Relevant Context]:\n" ++ String.intercalate "\n" (res.map (fun t => "- " ++ t))

/-- The character class kept by `re.sub(r'[^\w-]', '', user_id)`: word
characters (letters, digits, underscore) and the hyphen.  Python's `\w` also
admits non-ASCII word characters; only the ASCII reading matters for the
isolation and traversal properties proved below, since every kept character
is a word character or a hyphen either way. -/
def allowed_char (c : Char) : Bool :=
  c.isAlphanum || c = '_' || c = '-'

/-- The sanitized user identifier `re.sub(r'[^\w-]', '', user_id)`. -/
def sanitize (user_id : String) : String :=
  String.mk (user_id.data.filter allowed_char)

/-- `get_mem_path(user_id)` from lines 98-100, as the file name
`f"{safe_uid}.json"` inside the fixed memories directory. -/
def get_mem_path (user_id : String) : String :=
  sanitize user_id ++ ".json"

/-- The memories directory, as a map from file name to the parsed content of
that file (a missing or corrupt file parses to `[]`, the inline load
discipline of `save_memory_npy`). -/
def MemFS : Type := String → List MemRecord

/-- Reading a user's memory collection from the memories directory. -/
def load_mem (fs : MemFS) (user_id : String) : List MemRecord :=
  fs (get_mem_path user_id)

/-- Python's `str.strip()`: drop whitespace from both ends, modelled on the
character list (structurally, so that concrete instances compute). -/
def str_strip (s : String) : String :=
  String.mk (((s.data.dropWhile Char.isWhitespace).reverse.dropWhile Char.isWhitespace).reverse)

/-- Python's `str.lower()`, modelled on the character list. -/
def str_lower (s : String) : String :=
  String.mk (s.data.map Char.toLower)

/-- `save_memory_npy(user_id, text, role)` from lines 120-131, with the
embedding outcome `vec` made explicit: a no-op when the text is blank after
trimming or the embedding is unavailable (Python's `if not vec` is true for
both `None` and `[]`); otherwise the record is appended to the user's file. -/
def save_memory_npy (fs : MemFS) (user_id text role : String) (now : ℤ)
    (vec : Option (List ℚ)) : MemFS :=
  if str_strip text = "" then fs
  else
    match vec with
    | none => fs
    | some v =>
      if v = [] then fs
      else
        fun p =>
          if p = get_mem_path user_id then
            fs (get_mem_path user_id) ++ [⟨now, role, text, v⟩]
          else fs p

/-- A record as this subsystem persists it: non-blank text and a non-empty
vector (the two guards of `save_memory_npy`); the presence of all four fields
is structural in `MemRecord`. -/
def GoodRecord (r : MemRecord) : Prop :=
  str_strip r.text ≠ "" ∧ r.vector ≠ []

/-- Every record in every memory file satisfies `GoodRecord`. -/
def GoodFS (fs : MemFS) : Prop :=
  ∀ p, ∀ r ∈ fs p, GoodRecord r

/-- One turn of a stored session transcript; `emotion` is `none` when the
key is absent (Python's `m.get("emotion", "neutral")` then defaults it). -/
structure SessTurn where
  role : String
  text : String
  emotion : Option String
deriving DecidableEq

/-- A parsed session file as `analyze_user_trends` reads it. -/
structure SessionFile where
  updated : ℤ
  chat : List SessTurn
deriving DecidableEq

/-- The window selection of `analyze_user_trends` lines 154-163: keep the
parsed files with `o.get("updated", 0) > cutoff`, `cutoff = now - days*86400`. -/
def select_recent (now days : ℤ) (files : List SessionFile) : List SessionFile :=
  files.filter (fun o => decide (now - days * 86400 < o.updated))

/-- `cnt[e] = cnt.get(e, 0) + 1` on an insertion-ordered tally. -/
def bump (cnt : List (String × ℕ)) (e : String) : List (String × ℕ) :=
  match cnt with
  | [] => [(e, 1)]
  | (k, v) :: rest => if k = e then (k, v + 1) :: rest else (k, v) :: bump rest e

/-- The emotion tally of lines 168-174: over every assistant turn of the
selected files, count each emotion label other than `"neutral"` (a missing
label defaults to `"neutral"` and is likewise excluded). -/
def count_emotions (files : List SessionFile) : List (String × ℕ) :=
  files.foldl
    (fun cnt f =>
      f.chat.foldl
        (fun cnt m =>
          if m.role = "assistant" then
            if m.emotion.getD "neutral" ≠ "neutral" then bump cnt (m.emotion.getD "neutral")
            else cnt
          else cnt)
        cnt)
    []

/-- `max(cnt, key=cnt.get)` on the insertion-ordered tally: the first pair
with the maximal count (Python's `max` replaces only on strictly greater). -/
def max_pair : List (String × ℕ) → Option (String × ℕ)
  | [] => none
  | p :: rest => some (rest.foldl (fun best q => if best.2 < q.2 then q else best) p)

/-- `sum(cnt.values())`. -/
def tally_total (cnt : List (String × ℕ)) : ℕ :=
  (cnt.map Prod.snd).sum

/-- The largest count in the tally. -/
def tally_max (cnt : List (String × ℕ)) : ℕ :=
  (cnt.map Prod.snd).foldr max 0

/-- The single-quote character, used in the trend message. -/
def squote : String := String.singleton (Char.ofNat 39)

/-- The first line block of the trend hint, mirroring the f-string of line
184 with `dom.upper()` and the `(c/tot)` figure. -/
def trend_msg (days : ℕ) (dom : String) (c tot : ℕ) : String :=
  "\n[PSYCHOLOGICAL TREND ANALYSIS]:\n- Last " ++ toString days ++ " days mood: "
    ++ squote ++ dom.toUpper ++ squote ++ " (" ++ toString c ++ "/" ++ toString tot ++ ").\n"

/-- The behavioral-intervention suggestion appended for a negative dominant
mood (line 187). -/
def suggestion_msg : String :=
  "- Lingering negative mood detected. Suggest behavioral intervention (rest, brain dump) instead of just comfort.\n"

/-- `bad = ["sadness", "anger", "fear", "anxiety"]` (line 185). -/
def negative_moods : List String :=
  ["sadness", "anger", "fear", "anxiety"]

/-- Lines 176-189 of `analyze_user_trends`: from the tally, pick the dominant
label, and emit the hint exactly when `tot >= 3 and (c / tot) > 0.4`
(`0.4` is exactly `2/5` as a rational comparison of the two integers). -/
def trend_from_tally (days : ℕ) (cnt : List (String × ℕ)) : String :=
  match max_pair cnt with
  | none => ""
  | some dc =>
    if 3 ≤ tally_total cnt ∧ (2 / 5 : ℚ) < (dc.2 : ℚ) / (tally_total cnt : ℚ) then
      trend_msg days dc.1 dc.2 (tally_total cnt)
        ++ (if dc.1 ∈ negative_moods then suggestion_msg else "")
    else ""

/-- `analyze_user_trends(user_id, days)` lines 149-189 over the user's parsed
session files (files that fail to parse are skipped before this point and an
absent user directory yields no files, hence the empty tally and `""`). -/
def analyze_user_trends (now : ℤ) (days : ℕ) (files : List SessionFile) : String :=
  trend_from_tally days (count_emotions (select_recent now (days : ℤ) files))

/-- The two fields `api_chat` reads from `safe_json(txt)`: the extraction
outcome of the regex-and-parse step, restricted to the `reply` and `emotion`
keys it consults (`none` when the key is absent or no JSON object parses,
`some ""` when present but empty). -/
structure ExtractedObj where
  reply : Option String
  emotion : Option String
deriving DecidableEq

/-- Python's `x or default` for an optional string field: the default is used
when the field is absent or the empty string. -/
def or_default (v : Option String) (d : String) : String :=
  match v with
  | none => d
  | some s => if s = "" then d else s

/-- The response fields built at lines 277-280:
`(obj.get("emotion") or "neutral").lower().strip()` and
`(obj.get("reply") or txt).strip()`. -/
def respond_fields (txt : String) (obj : ExtractedObj) : String × String :=
  (str_strip (str_lower (or_default obj.emotion "neutral")), str_strip (or_default obj.reply txt))

/-- Outcome of the generation backend call as `ollama_chat` sees it:
`message_content` is `r.json()["message"]["content"]` when present. -/
structure GenResponse where
  message_content : Option String
deriving DecidableEq

/-- `ollama_chat` lines 191-198: any request exception yields `text = ""`,
and a response without a `message.content` field also defaults to `""`. -/
def ollama_chat_text : Except String GenResponse → String
  | .error _ => ""
  | .ok resp => resp.message_content.getD ""

/-- The observable result of one `/api/chat` turn. -/
inductive TurnResult where
  | errorResp (code : ℕ) (tag : String)
  | reply (emotion replyText : String)
deriving DecidableEq

/-- The tail of `api_chat` (lines 269-280), after authentication and the
empty-message check: on empty generation text return the 500 error without
touching memory; otherwise append both memory records and build the reply
from the extraction outcome. -/
def api_chat_turn (fs : MemFS) (user_id msg : String)
    (gen : Except String GenResponse) (emb_msg emb_reply : Option (List ℚ))
    (now : ℤ) (obj : ExtractedObj) : MemFS × TurnResult :=
  let txt := ollama_chat_text gen
  if txt = "" then (fs, .errorResp 500 "backend-failed")
  else
    let fs1 := save_memory_npy fs user_id msg "user" now emb_msg
    let fs2 := save_memory_npy fs1 user_id txt "assistant" now emb_reply
    (fs2, .reply (respond_fields txt obj).1 (respond_fields txt obj).2)

theorem mem_insert_desc {α : Type} (key : α → ℝ) (x z : α) (l : List α) :
    z ∈ insert_desc key x l ↔ z = x ∨ z ∈ l := by
  induction l with
  | nil => simp [insert_desc]
  | cons y ys ih =>
    by_cases h : key x < key y
    · simp only [insert_desc, if_pos h, List.mem_cons, ih]
      tauto
    · simp only [insert_desc, if_neg h, List.mem_cons]

theorem insert_desc_perm {α : Type} (key : α → ℝ) (x : α) (l : List α) :
    (insert_desc key x l).Perm (x :: l) := by
  induction l with
  | nil => exact List.Perm.refl _
  | cons y ys ih =>
    by_cases h : key x < key y
    · simp only [insert_desc, if_pos h]
      exact (ih.cons y).trans (List.Perm.swap x y ys)
    · simp only [insert_desc, if_neg h]
      exact List.Perm.refl _

theorem sort_desc_perm {α : Type} (key : α → ℝ) (l : List α) :
    (sort_desc key l).Perm l := by
  induction l with
  | nil => exact List.Perm.refl _
  | cons x xs ih =>
    exact (insert_desc_perm key x (sort_desc key xs)).trans (ih.cons x)

theorem insert_desc_map {α β : Type} (key : α → ℝ) (g : β → α) (x : β) (l : List β) :
    insert_desc key (g x) (l.map g) = (insert_desc (fun b => key (g b)) x l).map g := by
  induction l with
  | nil => rfl
  | cons y ys ih =>
    by_cases h : key (g x) < key (g y)
    · simp only [List.map_cons, insert_desc, if_pos h, ih]
    · simp only [List.map_cons, insert_desc, if_neg h]

theorem sort_desc_map {α β : Type} (key : α → ℝ) (g : β → α) (l : List β) :
    sort_desc key (l.map g) = (sort_desc (fun b => key (g b)) l).map g := by
  induction l with
  | nil => rfl
  | cons x xs ih =>
    simp only [List.map_cons, sort_desc, ih, insert_desc_map]

theorem insert_desc_pairwise {α : Type} (key : α → ℝ) (idx : α → ℕ) (x : α) (l : List α)
    (hl : l.Pairwise (fun a b => key b < key a ∨ (key b = key a ∧ idx a < idx b)))
    (hx : ∀ y ∈ l, idx x < idx y) :
    (insert_desc key x l).Pairwise (fun a b => key b < key a ∨ (key b = key a ∧ idx a < idx b)) := by
  induction l with
  | nil => simp [insert_desc]
  | cons y ys ih =>
    rcases List.pairwise_cons.mp hl with ⟨hy, hys⟩
    by_cases h : key x < key y
    · simp only [insert_desc, if_pos h]
      refine List.pairwise_cons.mpr ⟨?_, ih hys (fun z hz => hx z (List.mem_cons_of_mem y hz))⟩
      intro z hz
      rcases (mem_insert_desc key x z ys).mp hz with rfl | hz'
      · exact Or.inl h
      · exact hy z hz'
    · simp only [insert_desc, if_neg h]
      refine List.pairwise_cons.mpr ⟨?_, hl⟩
      intro z hz
      rcases List.mem_cons.mp hz with rfl | hz'
      · rcases lt_or_eq_of_le (not_lt.mp h) with hlt | heq
        · exact Or.inl hlt
        · exact Or.inr ⟨heq, hx z (List.mem_cons_self z ys)⟩
      · rcases hy z hz' with hlt | ⟨heq, _⟩
        · rcases lt_or_eq_of_le (not_lt.mp h) with h2 | h2
          · exact Or.inl (hlt.trans h2)
          · exact Or.inl (h2 ▸ hlt)
        · rcases lt_or_eq_of_le (not_lt.mp h) with h2 | h2
          · exact Or.inl (heq ▸ h2)
          · exact Or.inr ⟨heq.trans h2, hx z (List.mem_cons_of_mem y hz')⟩

theorem sort_desc_pairwise {α : Type} (key : α → ℝ) (idx : α → ℕ) (l : List α)
    (h : l.Pairwise (fun a b => idx a < idx b)) :
    (sort_desc key l).Pairwise (fun a b => key b < key a ∨ (key b = key a ∧ idx a < idx b)) := by
  induction l with
  | nil => simp [sort_desc]
  | cons x xs ih =>
    rcases List.pairwise_cons.mp h with ⟨hx, hxs⟩
    exact insert_desc_pairwise key idx x _ (ih hxs)
      (fun y hy => hx y ((sort_desc_perm key xs).mem_iff.mp hy))

theorem fst_le_of_mem_enumFrom {γ : Type} (y : ℕ × γ) (n : ℕ) (l : List γ)
    (h : y ∈ List.enumFrom n l) : n ≤ y.1 := by
  induction l generalizing n with
  | nil => simp [List.enumFrom] at h
  | cons a l ih =>
    rcases List.mem_cons.mp h with rfl | h'
    · exact Nat.le_refl n
    · exact (Nat.le_succ n).trans (ih (n + 1) h')

theorem enumFrom_pairwise_fst {γ : Type} (n : ℕ) (l : List γ) :
    (List.enumFrom n l).Pairwise (fun a b => a.1 < b.1) := by
  induction l generalizing n with
  | nil => simp [List.enumFrom]
  | cons a l ih =>
    refine List.pairwise_cons.mpr ⟨?_, ih (n + 1)⟩
    intro z hz
    exact Nat.lt_of_lt_of_le (Nat.lt_succ_self n) (fst_le_of_mem_enumFrom z (n + 1) l hz)

theorem enumFrom_map_snd {γ : Type} (n : ℕ) (l : List γ) :
    (List.enumFrom n l).map Prod.snd = l := by
  induction l generalizing n with
  | nil => rfl
  | cons a l ih => simp only [List.enumFrom, List.map_cons, ih]

/-- C1: for every stored collection and query vector, the `res` list of
`find_relevant_npy` consists of the record texts in non-increasing order of
cosine similarity to the query, truncated to the top `top_k` entries (the
caller's default is 3), and records of equal similarity appear in their
original (chronological) append order. -/
theorem retrieve_ranked_stable (data : List MemRecord) (q_vec : List ℚ) (top_k : ℕ) :
    ∃ ranked : List (ℕ × MemRecord),
      ranked.Perm data.enum ∧
      ranked.Pairwise (fun a b =>
        cosine_sim q_vec b.2.vector ≤ cosine_sim q_vec a.2.vector ∧
        (cosine_sim q_vec b.2.vector = cosine_sim q_vec a.2.vector → a.1 < b.1)) ∧
      relevant_texts data q_vec top_k = (ranked.take top_k).map (fun p => p.2.text) := by
  refine ⟨sort_desc (fun p => cosine_sim q_vec p.2.vector) data.enum, sort_desc_perm _ _, ?_, ?_⟩
  · refine (sort_desc_pairwise (fun p => cosine_sim q_vec p.2.vector) Prod.fst data.enum
      (enumFrom_pairwise_fst 0 data)).imp ?_
    intro a b hab
    rcases hab with hlt | ⟨heq, hidx⟩
    · exact ⟨le_of_lt hlt, fun he => (lt_irrefl _ (he ▸ hlt)).elim⟩
    · exact ⟨le_of_eq heq, fun _ => hidx⟩
  · have h1 : data.map (fun item => (cosine_sim q_vec item.vector, item.text))
        = data.enum.map (fun p => (cosine_sim q_vec p.2.vector, p.2.text)) := by
      conv_lhs => rw [← enumFrom_map_snd 0 data]
      rw [List.map_map]
      rfl
    unfold relevant_texts score_pairs
    rw [h1, sort_desc_map (fun p => p.1) (fun p => (cosine_sim q_vec p.2.vector, p.2.text)) data.enum]
    rw [← List.map_take, List.map_map]
    rfl

theorem sum_sq_nonneg (v : List ℚ) : 0 ≤ sum_sq v := by
  unfold sum_sq
  apply List.sum_nonneg
  intro x hx
  rcases List.mem_map.mp hx with ⟨a, _, rfl⟩
  exact mul_self_nonneg a

theorem sum_sq_cons (a : ℚ) (v : List ℚ) : sum_sq (a :: v) = a * a + sum_sq v := by
  simp [sum_sq]

theorem sum_sq_pos (v : List ℚ) (h : ∃ x ∈ v, x ≠ 0) : 0 < sum_sq v := by
  induction v with
  | nil => simp at h
  | cons a rest ih =>
    rw [sum_sq_cons]
    rcases h with ⟨x, hx, hne⟩
    rcases List.mem_cons.mp hx with rfl | hx'
    · have h1 : 0 < x * x := mul_self_pos.mpr hne
      have h2 := sum_sq_nonneg rest
      linarith
    · have h1 := ih ⟨x, hx', hne⟩
      have h2 : 0 ≤ a * a := mul_self_nonneg a
      linarith

theorem sum_sq_all_zero (v : List ℚ) (h : ∀ x ∈ v, x = 0) : sum_sq v = 0 := by
  induction v with
  | nil => rfl
  | cons a rest ih =>
    rw [sum_sq_cons, h a (List.mem_cons_self a rest),
      ih (fun x hx => h x (List.mem_cons_of_mem a hx))]
    ring

theorem dot_prod_self (v : List ℚ) : dot_prod v v = sum_sq v := by
  induction v with
  | nil => rfl
  | cons a rest ih =>
    have h1 : dot_prod (a :: rest) (a :: rest) = a * a + dot_prod rest rest := by
      simp [dot_prod]
    rw [h1, ih, sum_sq_cons]

/-- C3: `cosine_sim` returns exactly 0 when the lengths differ or either
vector has zero magnitude (in particular for the empty vector and for an
all-zero vector), and equals exactly 1 on any nonzero vector paired with
itself. -/
theorem cosine_sim_spec (v1 v2 v : List ℚ) :
    (v1.length ≠ v2.length → cosine_sim v1 v2 = 0) ∧
    (sum_sq v1 = 0 → cosine_sim v1 v2 = 0) ∧
    (sum_sq v2 = 0 → cosine_sim v1 v2 = 0) ∧
    ((∀ x ∈ v1, x = 0) → cosine_sim v1 v2 = 0) ∧
    cosine_sim [] v2 = 0 ∧
    ((∃ x ∈ v, x ≠ 0) → cosine_sim v v = 1) := by
  have hz1 : ∀ w1 w2 : List ℚ, sum_sq w1 = 0 → cosine_sim w1 w2 = 0 := by
    intro w1 w2 hw
    unfold cosine_sim
    by_cases hc : w1 = [] ∨ w2 = [] ∨ w1.length ≠ w2.length
    · rw [if_pos hc]
    · rw [if_neg hc, if_pos]
      exact Or.inl (by rw [hw]; simp)
  have hz2 : ∀ w1 w2 : List ℚ, sum_sq w2 = 0 → cosine_sim w1 w2 = 0 := by
    intro w1 w2 hw
    unfold cosine_sim
    by_cases hc : w1 = [] ∨ w2 = [] ∨ w1.length ≠ w2.length
    · rw [if_pos hc]
    · rw [if_neg hc, if_pos]
      exact Or.inr (by rw [hw]; simp)
  refine ⟨?_, hz1 v1 v2, hz2 v1 v2, ?_, ?_, ?_⟩
  · intro h
    unfold cosine_sim
    rw [if_pos (Or.inr (Or.inr h))]
  · intro h
    exact hz1 v1 v2 (sum_sq_all_zero v1 h)
  · unfold cosine_sim
    rw [if_pos (Or.inl rfl)]
  · intro h
    have hv : v ≠ [] := by
      rintro rfl
      rcases h with ⟨x, hx, _⟩
      exact absurd hx (List.not_mem_nil x)
    have spos : 0 < sum_sq v := sum_sq_pos v h
    have scast : (0 : ℝ) < ((sum_sq v : ℚ) : ℝ) := by exact_mod_cast spos
    have hmag : Real.sqrt ((sum_sq v : ℚ) : ℝ) ≠ 0 :=
      ne_of_gt (Real.sqrt_pos.mpr scast)
    unfold cosine_sim
    rw [if_neg (by simp [hv]), if_neg (by simp [hmag])]
    rw [dot_prod_self, Real.mul_self_sqrt (le_of_lt scast)]
    exact div_self (ne_of_gt scast)

theorem cosine_sim_spec_check :
    (∃ x ∈ [(2 : ℚ)], x ≠ 0) ∧ cosine_sim [(2 : ℚ)] [(2 : ℚ)] = 1 :=
  ⟨by decide, (cosine_sim_spec [] [] [(2 : ℚ)]).2.2.2.2.2 (by decide)⟩

/-- C6: an append whose text is blank after trimming or whose embedding is
unavailable does not raise and leaves the persisted memory map exactly
unchanged — no partial or empty-vector record is stored. -/
theorem append_degenerate_noop (fs : MemFS) (user_id text role : String) (now : ℤ)
    (vec : Option (List ℚ)) (h : str_strip text = "" ∨ vec = none) :
    save_memory_npy fs user_id text role now vec = fs := by
  unfold save_memory_npy
  rcases h with h | h
  · rw [if_pos h]
  · subst h
    by_cases ht : str_strip text = ""
    · rw [if_pos ht]
    · rw [if_neg ht]

theorem append_degenerate_noop_check :
    save_memory_npy (fun _ => []) "u" "hello" "user" 0 none = (fun _ => []) :=
  append_degenerate_noop (fun _ => []) "u" "hello" "user" 0 none (Or.inr rfl)

/-- C7: `find_relevant_npy` returns the empty result, never an error, when
the store is missing, the query embedding is unavailable or empty, the store
is corrupt, or the collection is empty; and the load discipline yields the
empty sequence for a missing or corrupt store. -/
theorem degraded_reads_empty (st : StoreState) (q : Option (List ℚ)) (top_k : ℕ) :
    find_relevant_npy .missing q top_k = "" ∧
    find_relevant_npy st none top_k = "" ∧
    find_relevant_npy st (some []) top_k = "" ∧
    find_relevant_npy .corrupt q top_k = "" ∧
    find_relevant_npy (.ok []) q top_k = "" ∧
    load_memory .missing = [] ∧
    load_memory .corrupt = [] := by
  refine ⟨rfl, ?_, ?_, ?_, ?_, rfl, rfl⟩
  · cases st <;> rfl
  · cases st <;> rfl
  · cases q <;> rfl
  · cases q with
    | none => rfl
    | some qv =>
      by_cases hq : qv = []
      · simp [find_relevant_npy, hq]
      · simp [find_relevant_npy, hq]

/-- C10: every record this subsystem persists satisfies the store invariant
(non-blank text, non-empty vector; the four fields are structural in
`MemRecord`), and a successful append leaves every previously stored record
unchanged in its original position, adds exactly one record at the end of
the user's own file, and touches no other file — so retrieval's unguarded
access to each record's vector field is always defined on such a store. -/
theorem append_preserves_store_invariant (fs : MemFS) (user_id text role : String)
    (now : ℤ) (vec : Option (List ℚ)) (h : GoodFS fs) :
    GoodFS (save_memory_npy fs user_id text role now vec) ∧
    (∀ v, vec = some v → str_strip text ≠ "" → v ≠ [] →
      save_memory_npy fs user_id text role now vec (get_mem_path user_id)
          = fs (get_mem_path user_id) ++ [⟨now, role, text, v⟩] ∧
      ∀ p, p ≠ get_mem_path user_id →
        save_memory_npy fs user_id text role now vec p = fs p) := by
  constructor
  · unfold save_memory_npy
    by_cases ht : str_strip text = ""
    · rw [if_pos ht]; exact h
    · rw [if_neg ht]
      cases vec with
      | none => exact h
      | some v =>
        show GoodFS (if v = [] then fs else fun p =>
          if p = get_mem_path user_id then
            fs (get_mem_path user_id) ++ [⟨now, role, text, v⟩]
          else fs p)
        by_cases hv : v = []
        · rw [if_pos hv]; exact h
        · rw [if_neg hv]
          intro p r hr
          have hr' : r ∈ (if p = get_mem_path user_id then
              fs (get_mem_path user_id) ++ [⟨now, role, text, v⟩] else fs p) := hr
          by_cases hp : p = get_mem_path user_id
          · rw [if_pos hp] at hr'
            rcases List.mem_append.mp hr' with hm | hm
            · exact h (get_mem_path user_id) r hm
            · rw [List.mem_singleton.mp hm]
              exact ⟨ht, hv⟩
          · rw [if_neg hp] at hr'
            exact h p r hr'
  · intro v hv ht hne
    subst hv
    unfold save_memory_npy
    rw [if_neg ht]
    show ((if v = [] then fs else fun p =>
        if p = get_mem_path user_id then
          fs (get_mem_path user_id) ++ [⟨now, role, text, v⟩]
        else fs p) (get_mem_path user_id) = _) ∧
      ∀ p, p ≠ get_mem_path user_id →
        (if v = [] then fs else fun p =>
          if p = get_mem_path user_id then
            fs (get_mem_path user_id) ++ [⟨now, role, text, v⟩]
          else fs p) p = fs p
    rw [if_neg hne]
    exact ⟨if_pos rfl, fun p hp => if_neg hp⟩

theorem append_preserves_store_invariant_check :
    GoodFS (fun _ => []) ∧
    (GoodFS (save_memory_npy (fun _ => []) "u" "hi" "user" 0 (some [1])) ∧
      (∀ v, (some [1] : Option (List ℚ)) = some v → str_strip "hi" ≠ "" → v ≠ [] →
        save_memory_npy (fun _ => []) "u" "hi" "user" 0 (some [1]) (get_mem_path "u")
            = (fun _ => ([] : List MemRecord)) (get_mem_path "u") ++ [⟨0, "user", "hi", v⟩] ∧
        ∀ p, p ≠ get_mem_path "u" →
          save_memory_npy (fun _ => []) "u" "hi" "user" 0 (some [1]) p
            = (fun _ => ([] : List MemRecord)) p)) :=
  have hg : GoodFS (fun _ => []) := fun _ r hr => absurd hr (List.not_mem_nil r)
  ⟨hg, append_preserves_store_invariant (fun _ => []) "u" "hi" "user" 0 (some [1]) hg⟩

theorem string_data_append (a b : String) : (a ++ b).data = a.data ++ b.data := by
  cases a
  cases b
  rfl

theorem string_append_right_cancel (a b c : String) (h : a ++ c = b ++ c) : a = b := by
  cases a with
  | mk l1 =>
    cases b with
    | mk l2 =>
      have hd := congrArg String.data h
      rw [string_data_append, string_data_append] at hd
      exact congrArg String.mk (List.append_cancel_right hd)

theorem get_mem_path_ne (A B : String) (h : sanitize A ≠ sanitize B) :
    get_mem_path A ≠ get_mem_path B := by
  intro he
  exact h (string_append_right_cancel (sanitize A) (sanitize B) ".json" he)

/-- C5: when two raw identifiers sanitize differently, an append under the
first changes nothing that load or retrieve observe under the second, and
every character of a sanitized identifier is allow-listed — in particular
never a path separator or a dot, so each user's memory file is a single
component inside the memories directory. -/
theorem user_isolation (A B text role : String) (now : ℤ) (vec : Option (List ℚ))
    (fs : MemFS) (top_k : ℕ) (q : Option (List ℚ)) (h : sanitize A ≠ sanitize B) :
    load_mem (save_memory_npy fs A text role now vec) B = load_mem fs B ∧
    find_relevant_npy (.ok (load_mem (save_memory_npy fs A text role now vec) B)) q top_k
        = find_relevant_npy (.ok (load_mem fs B)) q top_k ∧
    (∀ c ∈ (sanitize A).data, allowed_char c = true) ∧
    '/' ∉ (sanitize A).data ∧ '.' ∉ (sanitize A).data := by
  have hpath := get_mem_path_ne A B h
  have hload : load_mem (save_memory_npy fs A text role now vec) B = load_mem fs B := by
    unfold load_mem save_memory_npy
    by_cases ht : str_strip text = ""
    · rw [if_pos ht]
    · rw [if_neg ht]
      cases vec with
      | none => rfl
      | some v =>
        show (if v = [] then fs else fun p =>
            if p = get_mem_path A then
              fs (get_mem_path A) ++ [⟨now, role, text, v⟩]
            else fs p) (get_mem_path B) = fs (get_mem_path B)
        by_cases hv : v = []
        · rw [if_pos hv]
        · rw [if_neg hv]
          exact if_neg (fun he => hpath he.symm)
  have hchars : ∀ c ∈ (sanitize A).data, allowed_char c = true := by
    intro c hc
    exact (List.mem_filter.mp hc).2
  refine ⟨hload, by rw [hload], hchars, ?_, ?_⟩
  · intro hc
    exact absurd (hchars _ hc) (by decide)
  · intro hc
    exact absurd (hchars _ hc) (by decide)

theorem user_isolation_check :
    sanitize "alice" ≠ sanitize "bob=!" ∧
    load_mem (save_memory_npy (fun _ => []) "alice" "hi" "user" 0 (some [1])) "bob=!"
        = load_mem (fun _ => []) "bob=!" :=
  ⟨by decide,
    (user_isolation "alice" "bob=!" "hi" "user" 0 (some [1]) (fun _ => []) 3 none (by decide)).1⟩

theorem tally_max_cons (q : String × ℕ) (rest : List (String × ℕ)) :
    tally_max (q :: rest) = max q.2 (tally_max rest) := by
  simp [tally_max]

theorem foldl_best_snd (rest : List (String × ℕ)) :
    ∀ p : String × ℕ,
      (rest.foldl (fun best q => if best.2 < q.2 then q else best) p).2
        = max p.2 (tally_max rest) := by
  induction rest with
  | nil =>
    intro p
    simp [tally_max]
  | cons q rest ih =>
    intro p
    rw [List.foldl_cons, ih, tally_max_cons]
    by_cases h : p.2 < q.2
    · rw [if_pos h, ← Nat.max_assoc, Nat.max_eq_right (Nat.le_of_lt h)]
    · rw [if_neg h, ← Nat.max_assoc, Nat.max_eq_left (Nat.not_lt.mp h)]

theorem max_pair_snd (cnt : List (String × ℕ)) (dc : String × ℕ)
    (h : max_pair cnt = some dc) : dc.2 = tally_max cnt := by
  cases cnt with
  | nil => simp [max_pair] at h
  | cons p rest =>
    simp only [max_pair, Option.some.injEq] at h
    rw [← h, foldl_best_snd, tally_max_cons]

theorem max_pair_eq_none (cnt : List (String × ℕ)) :
    max_pair cnt = none ↔ cnt = [] := by
  cases cnt <;> simp [max_pair]

theorem trend_from_tally_some (days : ℕ) (cnt : List (String × ℕ)) (dc : String × ℕ)
    (hc : max_pair cnt = some dc) :
    trend_from_tally days cnt =
      if 3 ≤ tally_total cnt ∧ (2 / 5 : ℚ) < (dc.2 : ℚ) / (tally_total cnt : ℚ) then
        trend_msg days dc.1 dc.2 (tally_total cnt)
          ++ (if dc.1 ∈ negative_moods then suggestion_msg else "")
      else "" := by
  unfold trend_from_tally
  rw [hc]

theorem string_length_empty : String.length "" = 0 := rfl

theorem append_ne_empty_left (a b : String) (ha : a ≠ "") : a ++ b ≠ "" := by
  intro h
  apply ha
  have hlen := congrArg String.length h
  rw [String.length_append, string_length_empty] at hlen
  have hza : a.length = 0 := by omega
  cases a with
  | mk l =>
    cases l with
    | nil => rfl
    | cons c cs => simp [String.length] at hza

theorem trend_msg_ne_empty (days : ℕ) (dom : String) (c tot : ℕ) :
    trend_msg days dom c tot ≠ "" := by
  intro h
  have hlen := congrArg String.length h
  simp only [trend_msg, String.length_append, string_length_empty] at hlen
  have hpos : 0 < String.length "\n[PSYCHOLOGICAL TREND ANALYSIS]:\n- Last " := by decide
  omega

/-- C2: on a tally of non-neutral assistant emotions, a hint is emitted iff
the tally is non-empty, the total is at least 3, and the dominant share
strictly exceeds 2/5 (Python's `0.4`); the hint interpolates the dominant
label, its count, and the total, and appends the behavioral-intervention
suggestion exactly when the dominant label is in the negative-mood set; in
particular the tally {sadness: 3, joy: 1} produces the sadness hint with the
suggestion, and {joy: 1} produces no hint. -/
theorem trend_hint_emission (days : ℕ) (cnt : List (String × ℕ))
    (hnd : (cnt.map Prod.fst).Nodup) :
    (trend_from_tally days cnt ≠ "" ↔
      cnt ≠ [] ∧ 3 ≤ tally_total cnt ∧
        (2 / 5 : ℚ) < (tally_max cnt : ℚ) / (tally_total cnt : ℚ)) ∧
    (∀ dom c, max_pair cnt = some (dom, c) →
      3 ≤ tally_total cnt → (2 / 5 : ℚ) < (c : ℚ) / (tally_total cnt : ℚ) →
      trend_from_tally days cnt =
        trend_msg days dom c (tally_total cnt)
          ++ (if dom ∈ negative_moods then suggestion_msg else "")) ∧
    trend_from_tally days [("sadness", 3), ("joy", 1)]
        = trend_msg days "sadness" 3 4 ++ suggestion_msg ∧
    trend_from_tally days [("joy", 1)] = "" := by
  refine ⟨⟨?_, ?_⟩, ?_, ?_, ?_⟩
  · intro hne
    cases hc : max_pair cnt with
    | none =>
      rw [max_pair_eq_none] at hc
      subst hc
      exact absurd rfl hne
    | some dc =>
      rw [trend_from_tally_some days cnt dc hc] at hne
      by_cases hcond : 3 ≤ tally_total cnt ∧
          (2 / 5 : ℚ) < (dc.2 : ℚ) / (tally_total cnt : ℚ)
      · refine ⟨?_, hcond.1, ?_⟩
        · intro hnil
          subst hnil
          simp [max_pair] at hc
        · rw [← max_pair_snd cnt dc hc]
          exact hcond.2
      · rw [if_neg hcond] at hne
        exact absurd rfl hne
  · rintro ⟨hnil, h3, hr⟩
    cases hc : max_pair cnt with
    | none => exact absurd ((max_pair_eq_none cnt).mp hc) hnil
    | some dc =>
      rw [trend_from_tally_some days cnt dc hc]
      have hcond : 3 ≤ tally_total cnt ∧
          (2 / 5 : ℚ) < (dc.2 : ℚ) / (tally_total cnt : ℚ) := by
        refine ⟨h3, ?_⟩
        rw [max_pair_snd cnt dc hc]
        exact hr
      rw [if_pos hcond]
      exact append_ne_empty_left _ _ (trend_msg_ne_empty days dc.1 dc.2 (tally_total cnt))
  · intro dom c hc h3 hr
    rw [trend_from_tally_some days cnt (dom, c) hc]
    have hcond : 3 ≤ tally_total cnt ∧
        (2 / 5 : ℚ) < (((dom, c) : String × ℕ).2 : ℚ) / (tally_total cnt : ℚ) := ⟨h3, hr⟩
    rw [if_pos hcond]
  · have hmp : max_pair [("sadness", 3), ("joy", 1)] = some ("sadness", 3) := rfl
    rw [trend_from_tally_some days _ _ hmp]
    have hcond : 3 ≤ tally_total [("sadness", 3), ("joy", 1)] ∧
        (2 / 5 : ℚ) < ((((("sadness", 3)) : String × ℕ).2 : ℕ) : ℚ)
          / (tally_total [("sadness", 3), ("joy", 1)] : ℚ) := by
      constructor
      · decide
      · norm_num [tally_total]
    rw [if_pos hcond]
    have hmem : ("sadness" : String) ∈ negative_moods := by decide
    rw [if_pos hmem]
    rfl
  · have hmp : max_pair [("joy", 1)] = some ("joy", 1) := rfl
    rw [trend_from_tally_some days _ _ hmp]
    have hncond : ¬(3 ≤ tally_total [("joy", 1)] ∧
        (2 / 5 : ℚ) < ((((("joy", 1)) : String × ℕ).2 : ℕ) : ℚ)
          / (tally_total [("joy", 1)] : ℚ)) := by
      intro hcontr
      exact absurd hcontr.1 (by decide)
    rw [if_neg hncond]

theorem trend_hint_emission_check :
    (([("sadness", 3), ("joy", 1)] : List (String × ℕ)).map Prod.fst).Nodup ∧
    trend_from_tally 5 [("sadness", 3), ("joy", 1)]
        = trend_msg 5 "sadness" 3 4 ++ suggestion_msg :=
  ⟨by decide, (trend_hint_emission 5 [("sadness", 3), ("joy", 1)] (by decide)).2.2.1⟩

/-- C4 counterexample: with `now = 1000000` and `days = 5`, the cutoff is
`568000 = now - days*86400`; a transcript with `updated` exactly at the
cutoff is excluded by the strict comparison, and a transcript with `updated`
beyond `now` is included, so the aggregated set is not the closed interval
`[now - days*86400, now]` that the claim states. -/
theorem trend_window_boundary_cex :
    (568000 : ℤ) = 1000000 - 5 * 86400 ∧
    select_recent 1000000 5 [⟨568000, []⟩] = [] ∧
    (1000000 : ℤ) < 1000100 ∧
    select_recent 1000000 5 [⟨1000100, []⟩] = [⟨1000100, []⟩] :=
  ⟨by decide, by decide, by decide, by decide⟩

/-- C4 (amended): `analyze_user_trends` aggregates exactly those session
transcripts whose `updated` timestamp is strictly greater than
`now - windowDays*86400`: the lower boundary itself is excluded and there is
no upper bound, so a transcript with `updated` beyond `now` is included. -/
theorem trend_window_membership (now days : ℤ) (files : List SessionFile)
    (o : SessionFile) :
    o ∈ select_recent now days files ↔ o ∈ files ∧ now - days * 86400 < o.updated := by
  simp [select_recent, List.mem_filter]

theorem trend_window_membership_check :
    (⟨1000100, []⟩ : SessionFile) ∈ select_recent 1000000 5 [⟨1000100, []⟩] ↔
      (⟨1000100, []⟩ : SessionFile) ∈ [(⟨1000100, []⟩ : SessionFile)] ∧
        (1000000 : ℤ) - 5 * 86400 < (1000100 : ℤ) :=
  trend_window_membership 1000000 5 [⟨1000100, []⟩] ⟨1000100, []⟩

/-- C8: when the generation call fails — a transport error or timeout, or a
response with no extractable message content — the turn returns the 500
backend-failed error and the memory map is returned unchanged: no record is
appended for the user's message or for the assistant's reply. -/
theorem generation_failure_fatal (fs : MemFS) (user_id msg : String)
    (gen : Except String GenResponse) (emb_msg emb_reply : Option (List ℚ))
    (now : ℤ) (obj : ExtractedObj)
    (h : (∃ e, gen = .error e) ∨ (∃ resp, gen = .ok resp ∧ resp.message_content = none)) :
    api_chat_turn fs user_id msg gen emb_msg emb_reply now obj
      = (fs, .errorResp 500 "backend-failed") := by
  have htxt : ollama_chat_text gen = "" := by
    rcases h with ⟨e, rfl⟩ | ⟨resp, rfl, hrc⟩
    · rfl
    · simp [ollama_chat_text, hrc]
  unfold api_chat_turn
  rw [htxt]
  rfl

theorem generation_failure_fatal_check :
    (∃ e, (Except.error "timeout" : Except String GenResponse) = Except.error e) ∧
    api_chat_turn (fun _ => []) "u" "hello" (Except.error "timeout") none none 0 ⟨none, none⟩
      = ((fun _ => []), .errorResp 500 "backend-failed") :=
  ⟨⟨"timeout", rfl⟩,
    generation_failure_fatal (fun _ => []) "u" "hello" (Except.error "timeout") none none 0
      ⟨none, none⟩ (Or.inl ⟨"timeout", rfl⟩)⟩

/-- C9: when the generation text is non-empty but no usable `reply` or
`emotion` field was extracted from it, the turn's response is the entire
text stripped, paired with the default emotion label `"neutral"` — the
parse step fails closed instead of failing the turn. -/
theorem extraction_fails_closed (fs : MemFS) (user_id msg : String)
    (gen : Except String GenResponse) (emb_msg emb_reply : Option (List ℚ))
    (now : ℤ) (obj : ExtractedObj)
    (htxt : ollama_chat_text gen ≠ "")
    (hr : obj.reply = none ∨ obj.reply = some "")
    (he : obj.emotion = none ∨ obj.emotion = some "") :
    (api_chat_turn fs user_id msg gen emb_msg emb_reply now obj).2
      = .reply "neutral" (str_strip (ollama_chat_text gen)) := by
  have hneutral : str_strip (str_lower "neutral") = "neutral" := by decide
  have h1 : or_default obj.emotion "neutral" = "neutral" := by
    rcases he with h | h <;> simp [or_default, h]
  have h2 : or_default obj.reply (ollama_chat_text gen) = ollama_chat_text gen := by
    rcases hr with h | h <;> simp [or_default, h]
  unfold api_chat_turn
  rw [if_neg htxt]
  simp only [respond_fields, h1, h2, hneutral]

theorem extraction_fails_closed_check :
    ollama_chat_text (Except.ok ⟨some "hello"⟩) ≠ "" ∧
    (api_chat_turn (fun _ => []) "u" "hi" (Except.ok ⟨some "hello"⟩) none none 0
        ⟨none, none⟩).2
      = .reply "neutral" (str_strip (ollama_chat_text (Except.ok ⟨some "hello"⟩))) :=
  ⟨by decide,
    extraction_fails_closed (fun _ => []) "u" "hi" (Except.ok ⟨some "hello"⟩) none none 0
      ⟨none, none⟩ (by decide) (Or.inl rfl) (Or.inl rfl)⟩
